import Mathlib

/-!
Shallow embedding of the k-mer counting pipeline implemented in
`src/archivos/data/ejercicios/src/k-mers.py`, together with proofs of the
spec's testable properties.

Modelling choices:
* A Python `str` is a `List Char`; `str.upper()` is mapped pointwise with
  `Char.toUpper` (ASCII uppercase, which is all the program's alphabet uses).
* Python exceptions are an `Except PyErr` result; `PyErr` records the
  exception class (`TypeError` vs `ValueError`) and the formatted message.
* The dynamically-typed `k` argument of `count_kmers` is a `PyNum`, which can
  be a genuine `int`, a `bool` (which Python would treat as an `int` were it
  not explicitly rejected), or a value of some other type.
* A `collections.Counter` built from a list is an insertion-ordered
  association list: `counterOf` replays Python's `for elem: self[elem] += 1`
  loop, so keys appear in first-occurrence order.
* Python's `sorted`/`Counter.most_common` are stable sorts; they are embedded
  as `List.insertionSort`, which inserts each earlier element before the first
  later element it compares `≤` to, hence is stable for the total preorders
  used here.
-/

/-- Python exception classes used by the program: `TypeError` / `ValueError`. -/
inductive ErrKind where
  | typeKind
  | valueKind
deriving DecidableEq

/-- A raised Python exception: its class and its formatted message. -/
structure PyErr where
  kind : ErrKind
  msg : String
deriving DecidableEq

/-- The dynamically typed value passed as `k` to `count_kmers`. -/
inductive PyNum where
  | int (n : Int)
  | bool (b : Bool)
  | other (tyName : String)
deriving DecidableEq

/-- `VALID_NUCLEOTIDES = ("A", "T", "C", "G")` as a set of characters. -/
def VALID_NUCLEOTIDES : List Char := ['A', 'T', 'C', 'G']

/-- `VALID_NUCLEOTIDES_STR = "A, T, C, G"`. -/
def VALID_NUCLEOTIDES_STR : String := "A, T, C, G"

/-- `SORT_OPTIONS = ["appearance", "frequency", "kmer"]`. -/
def SORT_OPTIONS : List String := ["appearance", "frequency", "kmer"]

/-- `seq.upper()`, pointwise ASCII uppercase. -/
def upperSeq (s : List Char) : List Char := s.map Char.toUpper

/-- First-occurrence deduplication: the distinct elements of `xs`, each kept at
its first appearance.  Used to model iteration order of a Python `set`/`dict`
built left to right. -/
def dedupFirst {α : Type} [DecidableEq α] : List α → List α
  | [] => []
  | x :: xs => x :: (dedupFirst xs).filter (fun y => decide (y ≠ x))

/-- Python's character order: comparison of Unicode code points, strict. -/
def charLt (a b : Char) : Prop := a.toNat < b.toNat

instance : DecidableRel charLt := fun a b => Nat.decLt a.toNat b.toNat

/-- Python's character order: comparison of Unicode code points, non-strict. -/
def charLe (a b : Char) : Prop := a.toNat ≤ b.toNat

instance : DecidableRel charLe := fun a b => Nat.decLe a.toNat b.toNat

instance : IsTotal Char charLe := ⟨fun a b => Nat.le_total a.toNat b.toNat⟩

instance : IsTrans Char charLe := ⟨fun _ _ _ h1 h2 => Nat.le_trans h1 h2⟩

/-- `sorted(set(seq_upper) - VALID_NUCLEOTIDES)`: the distinct invalid
characters of an (uppercased) sequence, in ascending code-point order. -/
def invalidCharsOf (su : List Char) : List Char :=
  List.insertionSort charLe
    (dedupFirst (su.filter (fun c => decide (c ∉ VALID_NUCLEOTIDES))))

/-- `", ".join(chars)`. -/
def charsJoined (cs : List Char) : String :=
  String.intercalate ", " (cs.map (fun c => String.mk [c]))

/-- The `ValueError` message built by `validate_sequence` for invalid
characters. -/
def invalidMsg (cs : List Char) : String :=
  "La secuencia contiene nucleótidos inválidos: " ++ charsJoined cs ++
    ". Solo se permiten: " ++ VALID_NUCLEOTIDES_STR ++ "."

/-- `validate_sequence(seq)` from `k-mers.py` (the `isinstance(seq, str)`
check cannot fire in this embedding because the input is already a string). -/
def validate_sequence (seq : List Char) : Except PyErr (List Char) :=
  if seq = [] then
    .error ⟨.valueKind, "La secuencia no puede estar vacía."⟩
  else if invalidCharsOf (upperSeq seq) = [] then
    .ok (upperSeq seq)
  else
    .error ⟨.valueKind, invalidMsg (invalidCharsOf (upperSeq seq))⟩

/-- `[seq[i:i + k] for i in range(len(seq) - k + 1)]`. -/
def kmersOf (seq : List Char) (k : Nat) : List (List Char) :=
  (List.range (seq.length - k + 1)).map (fun i => (seq.drop i).take k)

/-- One step of `Counter` construction: `self[x] += 1`, inserting a new entry
at the end on first sight. -/
def bump {α : Type} [DecidableEq α] (acc : List (α × Nat)) (x : α) :
    List (α × Nat) :=
  match acc with
  | [] => [(x, 1)]
  | (y, n) :: rest => if x = y then (y, n + 1) :: rest else (y, n) :: bump rest x

/-- `Counter(xs)`: insertion-ordered association list of element counts. -/
def counterOf {α : Type} [DecidableEq α] (xs : List α) : List (α × Nat) :=
  xs.foldl bump []

/-- `count_kmers(seq, k)` from `k-mers.py`. -/
def count_kmers (seq : List Char) (k : PyNum) :
    Except PyErr (List (List Char × Nat)) :=
  match k with
  | .bool _ => .error ⟨.typeKind, "k debe ser un entero, se recibió: bool"⟩
  | .other t => .error ⟨.typeKind, "k debe ser un entero, se recibió: " ++ t⟩
  | .int n =>
      if n ≤ 0 then
        .error ⟨.valueKind,
          "El tamaño de k debe ser mayor a 0, se recibió: " ++ toString n⟩
      else if (seq.length : Int) < n then
        .error ⟨.valueKind,
          "El tamaño de k (" ++ toString n ++
            ") no puede ser mayor que la longitud de la secuencia (" ++
            toString seq.length ++ ")."⟩
      else
        .ok (counterOf (kmersOf seq n.toNat))

/-- The comparison used by `Counter.most_common()`: sort by count, descending
(`key=itemgetter(1), reverse=True`, stable). -/
def freqRel (a b : List Char × Nat) : Prop := b.2 ≤ a.2

instance : DecidableRel freqRel := fun a b => Nat.decLe b.2 a.2

/-- The comparison used by `sorted(kmer_counts.items())`: Python tuple order,
i.e. lexicographic (code-point) order on the k-mer string, then on the count. -/
def kmerRel (a b : List Char × Nat) : Prop :=
  List.Lex charLt a.1 b.1 ∨ (a.1 = b.1 ∧ a.2 ≤ b.2)

instance : DecidableRel kmerRel := fun a b =>
  inferInstanceAs (Decidable (List.Lex charLt a.1 b.1 ∨ (a.1 = b.1 ∧ a.2 ≤ b.2)))

/-- `kmer_counts.most_common()`. -/
def most_common (t : List (List Char × Nat)) : List (List Char × Nat) :=
  List.insertionSort freqRel t

/-- The report text: header line then one `kmer<TAB>count` line per entry. -/
def renderTable (items : List (List Char × Nat)) : String :=
  String.intercalate "\n"
    ("# kmer\tfrequency" ::
      items.map (fun e => String.mk e.1 ++ "\t" ++ toString e.2))

/-- `format_output(kmer_counts, sort_by)` from `k-mers.py`. -/
def format_output (kmer_counts : List (List Char × Nat)) (sort_by : String) :
    Except PyErr String :=
  if sort_by ∉ SORT_OPTIONS then
    .error ⟨.valueKind,
      "sort_by debe ser una de: appearance, frequency, kmer. Se recibió: " ++
        sort_by⟩
  else if sort_by = "frequency" then
    .ok (renderTable (most_common kmer_counts))
  else if sort_by = "kmer" then
    .ok (renderTable (List.insertionSort kmerRel kmer_counts))
  else
    .ok (renderTable kmer_counts)

/-- The class of the exception a call raised, if any. -/
def errKindOf {α : Type} : Except PyErr α → Option ErrKind
  | .ok _ => none
  | .error e => some e.kind

/-- `sum(table.values())`. -/
def sumCounts (t : List (List Char × Nat)) : Nat :=
  (t.map Prod.snd).sum

/-- Modelled from the spec: the error class the spec's words assign to each
`k` argument of `count(seq, k)` (claim C4): `TypeKind` for booleans and
non-integers, `ValueKind` for out-of-range integers, success otherwise. -/
def specErrKindForK (seq : List Char) (k : PyNum) : Option ErrKind :=
  match k with
  | .int n =>
      if n ≤ 0 ∨ (seq.length : Int) < n then some .valueKind else none
  | _ => some .typeKind

/-! ### Counting lemmas -/

theorem sum_bump {α : Type} [DecidableEq α] (acc : List (α × Nat)) (x : α) :
    ((bump acc x).map Prod.snd).sum = ((acc.map Prod.snd)).sum + 1 := by
  induction acc with
  | nil => simp [bump]
  | cons p rest ih =>
      obtain ⟨y, n⟩ := p
      by_cases h : x = y <;> simp [bump, h, ih] <;> omega

theorem sum_foldl_bump {α : Type} [DecidableEq α] (xs : List α)
    (acc : List (α × Nat)) :
    ((xs.foldl bump acc).map Prod.snd).sum =
      ((acc.map Prod.snd)).sum + xs.length := by
  induction xs generalizing acc with
  | nil => simp
  | cons x xs ih =>
      rw [List.foldl_cons, ih, sum_bump]
      simp
      omega

theorem sumCounts_counterOf {α : Type} [DecidableEq α] (xs : List α) :
    (((counterOf xs).map Prod.snd)).sum = xs.length := by
  simpa using sum_foldl_bump xs []

theorem length_kmersOf (seq : List Char) (k : Nat) :
    (kmersOf seq k).length = seq.length - k + 1 := by
  simp [kmersOf]

theorem mem_kmersOf_length (seq : List Char) (k : Nat) (hk : k ≤ seq.length)
    (w : List Char) (hw : w ∈ kmersOf seq k) : w.length = k := by
  simp only [kmersOf, List.mem_map, List.mem_range] at hw
  obtain ⟨i, hi, rfl⟩ := hw
  rw [List.length_take, List.length_drop]
  omega

theorem bump_forall {α : Type} [DecidableEq α] (P : α × Nat → Prop)
    (acc : List (α × Nat)) (x : α) (hacc : ∀ p ∈ acc, P p) (hnew : P (x, 1))
    (hb : ∀ y n, P (y, n) → P (y, n + 1)) :
    ∀ p ∈ bump acc x, P p := by
  induction acc with
  | nil =>
      intro p hp
      simp only [bump, List.mem_singleton] at hp
      exact hp ▸ hnew
  | cons q rest ih =>
      obtain ⟨y, n⟩ := q
      intro p hp
      by_cases h : x = y
      · simp only [bump, if_pos h, List.mem_cons] at hp
        rcases hp with rfl | hp
        · exact hb y n (hacc (y, n) (List.mem_cons_self _ _))
        · exact hacc p (List.mem_cons_of_mem _ hp)
      · simp only [bump, if_neg h, List.mem_cons] at hp
        rcases hp with rfl | hp
        · exact hacc (y, n) (List.mem_cons_self _ _)
        · exact ih (fun q hq => hacc q (List.mem_cons_of_mem _ hq)) p hp

theorem foldl_bump_forall {α : Type} [DecidableEq α] (P : α × Nat → Prop)
    (hb : ∀ y n, P (y, n) → P (y, n + 1)) :
    ∀ (xs : List α) (acc : List (α × Nat)), (∀ p ∈ acc, P p) →
      (∀ x ∈ xs, P (x, 1)) → ∀ p ∈ xs.foldl bump acc, P p := by
  intro xs
  induction xs with
  | nil => intro acc hacc _ p hp; exact hacc p hp
  | cons x rest ih =>
      intro acc hacc hxs p hp
      refine ih (bump acc x) ?_ (fun z hz => hxs z (List.mem_cons_of_mem _ hz)) p hp
      exact bump_forall P acc x hacc (hxs x (List.mem_cons_self _ _)) hb

theorem counterOf_forall {α : Type} [DecidableEq α] (P : α × Nat → Prop)
    (xs : List α) (hnew : ∀ x ∈ xs, P (x, 1))
    (hb : ∀ y n, P (y, n) → P (y, n + 1)) :
    ∀ p ∈ counterOf xs, P p :=
  foldl_bump_forall P hb xs [] (by simp) hnew

/-- C1: for every validated sequence and every integer `k` with
`1 ≤ k ≤ length(seq)`, the counts in the table returned by
`count_kmers(seq, k)` sum to `length(seq) - k + 1`. -/
theorem count_kmers_total_eq (s0 seq : List Char) (n : Int)
    (hv : validate_sequence s0 = .ok seq)
    (h1 : 1 ≤ n) (h2 : n ≤ (seq.length : Int)) :
    ∃ table, count_kmers seq (.int n) = .ok table ∧
      (sumCounts table : Int) = (seq.length : Int) - n + 1 := by
  refine ⟨counterOf (kmersOf seq n.toNat), ?_, ?_⟩
  · rw [count_kmers, if_neg (by omega), if_neg (by omega)]
  · rw [sumCounts, sumCounts_counterOf, length_kmersOf]
    have hn : (n.toNat : Int) = n := Int.toNat_of_nonneg (by omega)
    have hle : n.toNat ≤ seq.length := by omega
    push_cast
    omega

/-- Closed-form instance of `count_kmers_total_eq` at `seq = "ATCGATCG"`,
`k = 2`. -/
theorem count_kmers_total_eq_witness :
    ∃ table, count_kmers "ATCGATCG".data (.int 2) = .ok table ∧
      (sumCounts table : Int) = ("ATCGATCG".data.length : Int) - 2 + 1 :=
  count_kmers_total_eq "atcgatcg".data "ATCGATCG".data 2 (by rfl)
    (by decide) (by decide)

/-- C4: `count_kmers` raises `TypeError` exactly on boolean and non-integer
`k`, `ValueError` exactly on integer `k` with `k ≤ 0` or `k > length(seq)`,
and succeeds on every other `k`; this matches the spec's error-kind table
`specErrKindForK` verbatim. -/
theorem count_kmers_error_kinds (seq : List Char) (k : PyNum) :
    errKindOf (count_kmers seq k) = specErrKindForK seq k := by
  match k with
  | .bool b => rfl
  | .other t => rfl
  | .int n =>
      by_cases h1 : n ≤ 0
      · rw [count_kmers, if_pos h1, specErrKindForK, if_pos (Or.inl h1)]
        rfl
      · by_cases h2 : (seq.length : Int) < n
        · rw [count_kmers, if_neg h1, if_pos h2,
            specErrKindForK, if_pos (Or.inr h2)]
          rfl
        · rw [count_kmers, if_neg h1, if_neg h2,
            specErrKindForK, if_neg (by tauto)]
          rfl

/-- C8: for a validated sequence and `1 ≤ k ≤ length(seq)`, every key of the
returned table has length exactly `k` and every count is positive. -/
theorem count_kmers_entry_shape (s0 seq : List Char) (n : Int)
    (hv : validate_sequence s0 = .ok seq)
    (h1 : 1 ≤ n) (h2 : n ≤ (seq.length : Int)) :
    ∃ table, count_kmers seq (.int n) = .ok table ∧
      ∀ p ∈ table, p.1.length = n.toNat ∧ 0 < p.2 := by
  refine ⟨counterOf (kmersOf seq n.toNat), ?_, ?_⟩
  · rw [count_kmers, if_neg (by omega), if_neg (by omega)]
  · refine counterOf_forall
      (fun p : List Char × Nat => p.1.length = n.toNat ∧ 0 < p.2) _ ?_ ?_
    · intro x hx
      exact ⟨mem_kmersOf_length seq n.toNat (by omega) x hx, Nat.one_pos⟩
    · intro y m hm
      exact ⟨hm.1, Nat.succ_pos m⟩

/-- Closed-form instance of `count_kmers_entry_shape` at `seq = "ATCG"`,
`k = 2`. -/
theorem count_kmers_entry_shape_witness :
    ∃ table, count_kmers "ATCG".data (.int 2) = .ok table ∧
      ∀ p ∈ table, p.1.length = (2 : Int).toNat ∧ 0 < p.2 :=
  count_kmers_entry_shape "atcg".data "ATCG".data 2 (by rfl)
    (by decide) (by decide)

/-- C10: `count_kmers` never inspects the sequence's content: on any raw
string (lowercase, whitespace, symbols included) and any in-range integer
`k` it succeeds, and the table it returns is the counter of the raw
(case-preserved) substrings of the input. -/
theorem count_kmers_no_validation (s : List Char) (n : Int)
    (h1 : 1 ≤ n) (h2 : n ≤ (s.length : Int)) :
    count_kmers s (.int n) = .ok (counterOf (kmersOf s n.toNat)) ∧
      ∀ p ∈ counterOf (kmersOf s n.toNat),
        ∃ i, p.1 = (s.drop i).take n.toNat := by
  constructor
  · rw [count_kmers, if_neg (by omega), if_neg (by omega)]
  · refine counterOf_forall
      (fun p : List Char × Nat => ∃ i, p.1 = (s.drop i).take n.toNat) _ ?_ ?_
    · intro x hx
      simp only [kmersOf, List.mem_map, List.mem_range] at hx
      obtain ⟨i, _, rfl⟩ := hx
      exact ⟨i, rfl⟩
    · intro y m hm
      exact hm

/-- Closed-form instance of `count_kmers_no_validation` on the unvalidated
string `"aT cg"` with `k = 2`. -/
theorem count_kmers_no_validation_witness :
    count_kmers "aT cg".data (.int 2) =
        .ok (counterOf (kmersOf "aT cg".data (2 : Int).toNat)) ∧
      ∀ p ∈ counterOf (kmersOf "aT cg".data (2 : Int).toNat),
        ∃ i, p.1 = ("aT cg".data.drop i).take (2 : Int).toNat :=
  count_kmers_no_validation "aT cg".data 2 (by decide) (by decide)

/-! ### Sorting lemmas -/

instance : IsTotal (List Char × Nat) freqRel :=
  ⟨fun a b => Nat.le_total b.2 a.2⟩

instance : IsTrans (List Char × Nat) freqRel :=
  ⟨fun _ _ _ hab hbc => Nat.le_trans hbc hab⟩

theorem char_toNat_inj {a b : Char} (h : a.toNat = b.toNat) : a = b := by
  have ha := Char.ofNat_toNat a
  rw [h, Char.ofNat_toNat b] at ha
  exact ha.symm

theorem charLt_trichotomy (a b : Char) : charLt a b ∨ a = b ∨ charLt b a := by
  rcases Nat.lt_trichotomy a.toNat b.toNat with h | h | h
  · exact Or.inl h
  · exact Or.inr (Or.inl (char_toNat_inj h))
  · exact Or.inr (Or.inr h)

theorem lexLt_trichotomy (s : List Char) :
    ∀ t : List Char, List.Lex charLt s t ∨ s = t ∨ List.Lex charLt t s := by
  induction s with
  | nil =>
      intro t
      cases t with
      | nil => exact Or.inr (Or.inl rfl)
      | cons b t => exact Or.inl List.Lex.nil
  | cons a s ih =>
      intro t
      cases t with
      | nil => exact Or.inr (Or.inr List.Lex.nil)
      | cons b t =>
          rcases charLt_trichotomy a b with h | rfl | h
          · exact Or.inl (List.Lex.rel h)
          · rcases ih t with h | rfl | h
            · exact Or.inl (List.Lex.cons h)
            · exact Or.inr (Or.inl rfl)
            · exact Or.inr (Or.inr (List.Lex.cons h))
          · exact Or.inr (Or.inr (List.Lex.rel h))

theorem lexLt_trans : ∀ {s t u : List Char}, List.Lex charLt s t →
    List.Lex charLt t u → List.Lex charLt s u := by
  intro s t u h1
  induction h1 generalizing u with
  | nil =>
      intro h2
      cases h2 with
      | cons _ => exact List.Lex.nil
      | rel _ => exact List.Lex.nil
  | @cons a l1 l2 h ih =>
      intro h2
      cases h2 with
      | cons h2a => exact List.Lex.cons (ih h2a)
      | rel hr => exact List.Lex.rel hr
  | @rel a1 l1 a2 l2 hr =>
      intro h2
      cases h2 with
      | cons _ => exact List.Lex.rel hr
      | rel hr2 => exact List.Lex.rel (Nat.lt_trans hr hr2)

instance : IsTotal (List Char × Nat) kmerRel := by
  constructor
  intro a b
  rcases lexLt_trichotomy a.1 b.1 with h | h | h
  · exact Or.inl (Or.inl h)
  · rcases Nat.le_total a.2 b.2 with h2 | h2
    · exact Or.inl (Or.inr ⟨h, h2⟩)
    · exact Or.inr (Or.inr ⟨h.symm, h2⟩)
  · exact Or.inr (Or.inl h)

instance : IsTrans (List Char × Nat) kmerRel := by
  constructor
  intro a b c hab hbc
  rcases hab with h1 | ⟨e1, l1⟩ <;> rcases hbc with h2 | ⟨e2, l2⟩
  · exact Or.inl (lexLt_trans h1 h2)
  · exact Or.inl (e2 ▸ h1)
  · exact Or.inl (e1 ▸ h2)
  · exact Or.inr ⟨e1.trans e2, Nat.le_trans l1 l2⟩

theorem filter_orderedInsert_of_neg {α : Type} (r : α → α → Prop)
    [DecidableRel r] (p : α → Bool) (x : α) (l : List α) (hx : p x = false) :
    ((l.orderedInsert r x).filter p) = l.filter p := by
  induction l with
  | nil => simp [List.orderedInsert, hx]
  | cons y ys ih =>
      rw [List.orderedInsert]
      by_cases h : r x y
      · rw [if_pos h]
        simp [List.filter_cons, hx]
      · rw [if_neg h]
        simp only [List.filter_cons, ih]

theorem filter_orderedInsert_of_pos {α : Type} (r : α → α → Prop)
    [DecidableRel r] (p : α → Bool) (x : α) (l : List α) (hx : p x = true)
    (h : ∀ y ∈ l, ¬ r x y → p y = false) :
    ((l.orderedInsert r x).filter p) = x :: l.filter p := by
  induction l with
  | nil => simp [List.orderedInsert, hx]
  | cons y ys ih =>
      rw [List.orderedInsert]
      by_cases hr : r x y
      · rw [if_pos hr]
        simp [List.filter_cons, hx]
      · rw [if_neg hr]
        have hy : p y = false := h y (List.mem_cons_self _ _) hr
        simp only [List.filter_cons, hy, Bool.false_eq_true, if_false]
        exact ih (fun z hz hrz => h z (List.mem_cons_of_mem _ hz) hrz)

theorem insertionSort_freqRel_filter (t : List (List Char × Nat)) (c : Nat) :
    (List.insertionSort freqRel t).filter (fun e => e.2 == c) =
      t.filter (fun e => e.2 == c) := by
  induction t with
  | nil => rfl
  | cons x xs ih =>
      rw [List.insertionSort]
      by_cases hx : x.2 = c
      · rw [filter_orderedInsert_of_pos freqRel _ x _ (by simp [hx]) ?_]
        · rw [List.filter_cons]
          simp [hx, ih]
        · intro y _ hr
          have hlt : x.2 < y.2 := by simpa [freqRel] using hr
          simp only [beq_eq_false_iff_ne, ne_eq]
          omega
      · rw [filter_orderedInsert_of_neg freqRel _ x _ (by simp [hx]),
          List.filter_cons]
        simp [hx, ih]

/-- C2: `format_output(table, "frequency")` renders `most_common`, which is a
permutation of the table whose counts are non-increasing line to line, and
which keeps entries of equal count in their original (insertion) relative
order: filtering either list to any fixed count `c` gives identical lists. -/
theorem format_output_frequency_spec (t : List (List Char × Nat)) :
    format_output t "frequency" = .ok (renderTable (most_common t)) ∧
    (most_common t).Perm t ∧
    List.Pairwise (fun a b => b.2 ≤ a.2) (most_common t) ∧
    ∀ c : Nat, (most_common t).filter (fun e => e.2 == c) =
      t.filter (fun e => e.2 == c) :=
  ⟨rfl, List.perm_insertionSort freqRel t, List.sorted_insertionSort freqRel t,
    fun c => insertionSort_freqRel_filter t c⟩

/-- C7: `format_output(table, "kmer")` renders the table sorted by Python
tuple order, a permutation of the table on which the k-mer strings are
lexicographically non-decreasing from line to line. -/
theorem format_output_kmer_spec (t : List (List Char × Nat)) :
    format_output t "kmer" = .ok (renderTable (List.insertionSort kmerRel t)) ∧
    (List.insertionSort kmerRel t).Perm t ∧
    List.Pairwise kmerRel (List.insertionSort kmerRel t) ∧
    List.Pairwise (fun a b => List.Lex charLt a.1 b.1 ∨ a.1 = b.1)
      (List.insertionSort kmerRel t) := by
  refine ⟨rfl, List.perm_insertionSort kmerRel t,
    List.sorted_insertionSort kmerRel t,
    List.Pairwise.imp ?_ (List.sorted_insertionSort kmerRel t)⟩
  intro a b hab
  rcases hab with h | ⟨h, _⟩
  · exact Or.inl h
  · exact Or.inr h

/-! ### Insertion-order (appearance) lemmas -/

theorem map_fst_bump {α : Type} [DecidableEq α] (acc : List (α × Nat)) (x : α) :
    (bump acc x).map Prod.fst =
      if x ∈ acc.map Prod.fst then acc.map Prod.fst
      else acc.map Prod.fst ++ [x] := by
  induction acc with
  | nil => simp [bump]
  | cons p rest ih =>
      obtain ⟨y, n⟩ := p
      by_cases h : x = y
      · simp [bump, h]
      · simp only [bump, if_neg h, List.map_cons, List.mem_cons]
        rw [ih]
        by_cases h2 : x ∈ rest.map Prod.fst
        · rw [if_pos h2, if_pos (Or.inr h2)]
        · rw [if_neg h2, if_neg (by tauto), List.cons_append]

/-- The key list built by folding `bump` over `xs` starting from keys `ks`:
each element of `xs` is appended on first sight. -/
def addKeys {α : Type} [DecidableEq α] : List α → List α → List α
  | ks, [] => ks
  | ks, x :: xs => addKeys (if x ∈ ks then ks else ks ++ [x]) xs

theorem map_fst_foldl_bump {α : Type} [DecidableEq α] (xs : List α)
    (acc : List (α × Nat)) :
    (xs.foldl bump acc).map Prod.fst = addKeys (acc.map Prod.fst) xs := by
  induction xs generalizing acc with
  | nil => simp [addKeys]
  | cons x rest ih =>
      rw [List.foldl_cons, ih, map_fst_bump, addKeys]

theorem addKeys_eq {α : Type} [DecidableEq α] (xs : List α) :
    ∀ ks : List α,
      addKeys ks xs = ks ++ (dedupFirst xs).filter (fun y => decide (y ∉ ks)) := by
  induction xs with
  | nil => intro ks; simp [addKeys, dedupFirst]
  | cons x rest ih =>
      intro ks
      by_cases hx : x ∈ ks
      · rw [addKeys, if_pos hx, ih, dedupFirst, List.filter_cons]
        have hxks : (decide (x ∉ ks)) = false := by simp [hx]
        rw [hxks]
        simp only [Bool.false_eq_true, if_false, List.filter_filter]
        congr 1
        refine List.filter_congr ?_
        intro y _
        by_cases hy : y ∈ ks
        · simp [hy]
        · have hne : y ≠ x := fun h => hy (h ▸ hx)
          simp [hy, hne]
      · rw [addKeys, if_neg hx, ih, dedupFirst, List.filter_cons]
        have hxks : (decide (x ∉ ks)) = true := by simp [hx]
        rw [hxks]
        simp only [if_true, List.filter_filter, List.append_assoc,
          List.singleton_append]
        congr 2
        refine List.filter_congr ?_
        intro y _
        by_cases hyx : y = x
        · subst hyx
          simp [hx]
        · by_cases hy : y ∈ ks <;> simp [hy, hyx]

theorem map_fst_counterOf {α : Type} [DecidableEq α] (xs : List α) :
    (counterOf xs).map Prod.fst = dedupFirst xs := by
  rw [counterOf, map_fst_foldl_bump, addKeys_eq]
  simp

theorem mem_dedupFirst {α : Type} [DecidableEq α] (xs : List α) (a : α) :
    a ∈ dedupFirst xs ↔ a ∈ xs := by
  induction xs with
  | nil => simp [dedupFirst]
  | cons x rest ih =>
      simp only [dedupFirst, List.mem_cons, List.mem_filter, ih,
        decide_eq_true_eq]
      by_cases h : a = x
      · simp [h]
      · simp [h]

theorem nodup_dedupFirst {α : Type} [DecidableEq α] (xs : List α) :
    (dedupFirst xs).Nodup := by
  induction xs with
  | nil => simp [dedupFirst]
  | cons x rest ih =>
      rw [dedupFirst, List.nodup_cons]
      refine ⟨?_, ih.filter _⟩
      intro hmem
      have h := (List.mem_filter.mp hmem).2
      simp at h

/-- The index of the first occurrence of `a` in `xs` (length of `xs` when
absent); for a k-mer list this is the smallest start offset producing `a`. -/
def firstIdx {α : Type} [DecidableEq α] (xs : List α) (a : α) : Nat :=
  match xs with
  | [] => 0
  | x :: rest => if x = a then 0 else firstIdx rest a + 1

theorem firstIdx_cons_ne {α : Type} [DecidableEq α] (x a : α) (rest : List α)
    (h : x ≠ a) : firstIdx (x :: rest) a = firstIdx rest a + 1 := by
  simp [firstIdx, h]

theorem dedupFirst_firstIdx_pairwise {α : Type} [DecidableEq α] (xs : List α) :
    List.Pairwise (fun a b => firstIdx xs a < firstIdx xs b) (dedupFirst xs) := by
  induction xs with
  | nil => simp [dedupFirst]
  | cons x rest ih =>
      rw [dedupFirst]
      refine List.pairwise_cons.mpr ⟨?_, ?_⟩
      · intro b hb
        have hbx : b ≠ x := by
          have h := (List.mem_filter.mp hb).2
          simpa using h
        have h1 : firstIdx (x :: rest) x = 0 := by simp [firstIdx]
        have h2 : firstIdx (x :: rest) b = firstIdx rest b + 1 :=
          firstIdx_cons_ne _ _ _ (Ne.symm hbx)
        omega
      · have hsub : List.Pairwise (fun a b => firstIdx rest a < firstIdx rest b)
            ((dedupFirst rest).filter (fun y => decide (y ≠ x))) :=
          List.Pairwise.sublist (List.filter_sublist _) ih
        refine List.Pairwise.imp_of_mem ?_ hsub
        intro a b ha hb hab
        have hax : a ≠ x := by
          have h := (List.mem_filter.mp ha).2
          simpa using h
        have hbx : b ≠ x := by
          have h := (List.mem_filter.mp hb).2
          simpa using h
        rw [firstIdx_cons_ne _ _ _ (Ne.symm hax),
          firstIdx_cons_ne _ _ _ (Ne.symm hbx)]
        omega

/-- C3: for a validated sequence and in-range `k`, the `"appearance"` policy
renders the counted table exactly as built (no re-sorting), and the table's
keys are the distinct k-mers of the sequence listed in first-appearance
order: no duplicates, every extracted k-mer present, and pairwise ordered by
strictly increasing index of first occurrence in the k-mer list (the k-mer at
index `i` of `kmersOf` being the substring starting at offset `i`). -/
theorem format_output_appearance_spec (s0 seq : List Char) (n : Int)
    (hv : validate_sequence s0 = .ok seq)
    (h1 : 1 ≤ n) (h2 : n ≤ (seq.length : Int)) :
    ∃ table, count_kmers seq (.int n) = .ok table ∧
      format_output table "appearance" = .ok (renderTable table) ∧
      table.map Prod.fst = dedupFirst (kmersOf seq n.toNat) ∧
      (table.map Prod.fst).Nodup ∧
      (∀ a, a ∈ table.map Prod.fst ↔ a ∈ kmersOf seq n.toNat) ∧
      List.Pairwise
        (fun a b =>
          firstIdx (kmersOf seq n.toNat) a < firstIdx (kmersOf seq n.toNat) b)
        (table.map Prod.fst) := by
  have hkeys : (counterOf (kmersOf seq n.toNat)).map Prod.fst =
      dedupFirst (kmersOf seq n.toNat) := map_fst_counterOf _
  refine ⟨counterOf (kmersOf seq n.toNat), ?_, rfl, hkeys, ?_, ?_, ?_⟩
  · rw [count_kmers, if_neg (by omega), if_neg (by omega)]
  · rw [hkeys]
    exact nodup_dedupFirst _
  · intro a
    rw [hkeys, mem_dedupFirst]
  · rw [hkeys]
    exact dedupFirst_firstIdx_pairwise (kmersOf seq n.toNat)

/-- Closed-form instance of `format_output_appearance_spec` at
`seq = "ATCGATCG"`, `k = 2`. -/
theorem format_output_appearance_spec_witness :
    ∃ table, count_kmers "ATCGATCG".data (.int 2) = .ok table ∧
      format_output table "appearance" = .ok (renderTable table) ∧
      table.map Prod.fst = dedupFirst (kmersOf "ATCGATCG".data (2 : Int).toNat) ∧
      (table.map Prod.fst).Nodup ∧
      (∀ a, a ∈ table.map Prod.fst ↔ a ∈ kmersOf "ATCGATCG".data (2 : Int).toNat) ∧
      List.Pairwise
        (fun a b =>
          firstIdx (kmersOf "ATCGATCG".data (2 : Int).toNat) a <
            firstIdx (kmersOf "ATCGATCG".data (2 : Int).toNat) b)
        (table.map Prod.fst) :=
  format_output_appearance_spec "atcgatcg".data "ATCGATCG".data 2 (by rfl)
    (by decide) (by decide)

/-! ### Validator lemmas -/

theorem dedupFirst_eq_nil_iff {α : Type} [DecidableEq α] (xs : List α) :
    dedupFirst xs = [] ↔ xs = [] := by
  cases xs with
  | nil => simp [dedupFirst]
  | cons x rest => simp [dedupFirst]

theorem invalidCharsOf_eq_nil_iff (su : List Char) :
    invalidCharsOf su = [] ↔
      su.filter (fun c => decide (c ∉ VALID_NUCLEOTIDES)) = [] := by
  rw [invalidCharsOf]
  constructor
  · intro h
    have hperm := List.perm_insertionSort charLe
      (dedupFirst (su.filter (fun c => decide (c ∉ VALID_NUCLEOTIDES))))
    rw [h] at hperm
    exact (dedupFirst_eq_nil_iff _).mp hperm.symm.eq_nil
  · intro h
    rw [h]
    rfl

theorem mem_invalidCharsOf (su : List Char) (c : Char) :
    c ∈ invalidCharsOf su ↔ c ∈ su ∧ c ∉ VALID_NUCLEOTIDES := by
  rw [invalidCharsOf, List.mem_insertionSort, mem_dedupFirst, List.mem_filter]
  simp

theorem nodup_invalidCharsOf (su : List Char) : (invalidCharsOf su).Nodup := by
  rw [invalidCharsOf]
  exact ((List.perm_insertionSort charLe _).nodup_iff).mpr (nodup_dedupFirst _)

theorem pairwise_lt_invalidCharsOf (su : List Char) :
    List.Pairwise charLt (invalidCharsOf su) := by
  have hs : List.Pairwise charLe (invalidCharsOf su) :=
    List.sorted_insertionSort charLe _
  have hn : (invalidCharsOf su).Nodup := nodup_invalidCharsOf su
  refine (hs.and hn).imp ?_
  intro a b hab
  rcases hab with ⟨hle, hne⟩
  have htn : a.toNat ≠ b.toNat := fun hh => hne (char_toNat_inj hh)
  exact Nat.lt_of_le_of_ne hle htn

theorem map_id_of_fixed {α : Type} (f : α → α) (l : List α)
    (h : ∀ a ∈ l, f a = a) : l.map f = l := by
  induction l with
  | nil => rfl
  | cons x xs ih =>
      rw [List.map_cons, h x (List.mem_cons_self _ _),
        ih (fun a ha => h a (List.mem_cons_of_mem _ ha))]

/-- C5: on a non-empty input with at least one invalid character after
uppercasing, `validate_sequence` fails with a single `ValueError` whose
message lists the invalid characters, and that list is duplicate-free,
strictly sorted, and contains exactly the invalid characters of the
uppercased input. -/
theorem validate_sequence_reports_all_invalid (s : List Char) (hne : s ≠ [])
    (hbad : ∃ c ∈ upperSeq s, c ∉ VALID_NUCLEOTIDES) :
    validate_sequence s =
        .error ⟨.valueKind, invalidMsg (invalidCharsOf (upperSeq s))⟩ ∧
      invalidCharsOf (upperSeq s) ≠ [] ∧
      (invalidCharsOf (upperSeq s)).Nodup ∧
      List.Pairwise charLt (invalidCharsOf (upperSeq s)) ∧
      ∀ c, c ∈ invalidCharsOf (upperSeq s) ↔
        c ∈ upperSeq s ∧ c ∉ VALID_NUCLEOTIDES := by
  obtain ⟨c, hc, hcv⟩ := hbad
  have hmem : c ∈ invalidCharsOf (upperSeq s) :=
    (mem_invalidCharsOf _ _).mpr ⟨hc, hcv⟩
  have hnil : invalidCharsOf (upperSeq s) ≠ [] := by
    intro h0
    rw [h0] at hmem
    exact (List.not_mem_nil c) hmem
  refine ⟨?_, hnil, nodup_invalidCharsOf _, pairwise_lt_invalidCharsOf _,
    fun d => mem_invalidCharsOf _ d⟩
  rw [validate_sequence, if_neg hne, if_neg hnil]

/-- Closed-form instance of `validate_sequence_reports_all_invalid` at
`"ATCGX"`. -/
theorem validate_sequence_reports_all_invalid_witness :
    validate_sequence "ATCGX".data =
        .error ⟨.valueKind,
          invalidMsg (invalidCharsOf (upperSeq "ATCGX".data))⟩ ∧
      invalidCharsOf (upperSeq "ATCGX".data) ≠ [] ∧
      (invalidCharsOf (upperSeq "ATCGX".data)).Nodup ∧
      List.Pairwise charLt (invalidCharsOf (upperSeq "ATCGX".data)) ∧
      ∀ c, c ∈ invalidCharsOf (upperSeq "ATCGX".data) ↔
        c ∈ upperSeq "ATCGX".data ∧ c ∉ VALID_NUCLEOTIDES :=
  validate_sequence_reports_all_invalid "ATCGX".data (by decide)
    ⟨'X', by decide, by decide⟩

/-- C6: every input that is empty or consists only of whitespace makes
`validate_sequence` fail with a `ValueError` (the empty string through the
emptiness check, whitespace-only strings through the invalid-character
check, whitespace not being a valid nucleotide). -/
theorem validate_sequence_blank_fails (s : List Char)
    (h : ∀ c ∈ s, c.isWhitespace = true) :
    errKindOf (validate_sequence s) = some .valueKind := by
  by_cases hs : s = []
  · subst hs
    rfl
  · rw [validate_sequence, if_neg hs]
    obtain ⟨c, hc⟩ := List.exists_mem_of_ne_nil s hs
    have hw := h c hc
    have hcu : Char.toUpper c = c ∧ c ∉ VALID_NUCLEOTIDES := by
      have hc4 : ((c = ' ' ∨ c = '\t') ∨ c = '\r') ∨ c = '\n' := by
        simpa [Char.isWhitespace] using hw
      rcases hc4 with ((rfl | rfl) | rfl) | rfl <;> exact ⟨by decide, by decide⟩
    have hmem : c ∈ invalidCharsOf (upperSeq s) := by
      rw [mem_invalidCharsOf]
      exact ⟨List.mem_map.mpr ⟨c, hc, hcu.1⟩, hcu.2⟩
    have hnil : invalidCharsOf (upperSeq s) ≠ [] := by
      intro h0
      rw [h0] at hmem
      exact (List.not_mem_nil c) hmem
    rw [if_neg hnil]
    rfl

/-- Closed-form instance of `validate_sequence_blank_fails` on a
whitespace-only string. -/
theorem validate_sequence_blank_fails_witness :
    errKindOf (validate_sequence " \t".data) = some .valueKind :=
  validate_sequence_blank_fails " \t".data (by decide)

/-- C9: whenever `validate_sequence` succeeds it returns exactly the
uppercased input, and validating that result again succeeds and returns it
unchanged (idempotence on its own outputs). -/
theorem validate_sequence_upper_idempotent (s r : List Char)
    (h : validate_sequence s = .ok r) :
    r = upperSeq s ∧ validate_sequence r = .ok r := by
  rw [validate_sequence] at h
  by_cases hs : s = []
  · rw [if_pos hs] at h
    exact absurd h (by simp)
  · rw [if_neg hs] at h
    by_cases hi : invalidCharsOf (upperSeq s) = []
    · rw [if_pos hi] at h
      have hr : upperSeq s = r := Except.ok.inj h
      have hval : ∀ c ∈ upperSeq s, c ∈ VALID_NUCLEOTIDES := by
        have hfil := (invalidCharsOf_eq_nil_iff _).mp hi
        intro c hc
        have hcc := List.filter_eq_nil_iff.mp hfil c hc
        simpa using hcc
      have hfix : ∀ c ∈ upperSeq s, Char.toUpper c = c := by
        intro c hc
        have hv := hval c hc
        have hc4 : c = 'A' ∨ c = 'T' ∨ c = 'C' ∨ c = 'G' := by
          simpa [VALID_NUCLEOTIDES] using hv
        rcases hc4 with rfl | rfl | rfl | rfl <;> decide
      have hupper : upperSeq (upperSeq s) = upperSeq s :=
        map_id_of_fixed Char.toUpper (upperSeq s) hfix
      have hrne : r ≠ [] := by
        rw [← hr]
        simpa [upperSeq] using hs
      refine ⟨hr.symm, ?_⟩
      rw [validate_sequence, if_neg hrne, ← hr, hupper, if_pos hi]
    · rw [if_neg hi] at h
      exact absurd h (by simp)

/-- Closed-form instance of `validate_sequence_upper_idempotent` at
`"atcg"`. -/
theorem validate_sequence_upper_idempotent_witness :
    "ATCG".data = upperSeq "atcg".data ∧
      validate_sequence "ATCG".data = .ok "ATCG".data :=
  validate_sequence_upper_idempotent "atcg".data "ATCG".data (by rfl)
